import Mathlib

/-!
Verification of the `textile` TeX-style tokenizer and macro-definition
parser.  The definitions below are a shallow embedding of the Rust sources:

* `src/interval_map.rs` — `IntIntervalMap` (the category table): `new`,
  `assign`, `assign_single`, `get`, `defrag`.  The index type `u32` is
  embedded as `Nat` together with the explicit bound `U32MAX`
  (`Idx::min_value() = 0`, `Idx::max_value() = U32MAX`).  The `expect`
  panic of `get` on an empty map is made explicit: `get?` returns `none`
  exactly when the Rust code would panic.
* `src/token.rs` — `Category`, `Token`, `Span`, `Tokenizer` and its
  scanning loop.  Characters are embedded as `Nat` code points; strings as
  `List Nat`.  The Rust code indexes the line buffer by *bytes*; the
  embedding indexes by characters, which agrees with the source whenever
  the characters involved are ASCII. Panics (`expect` / `unwrap` /
  slicing) are modelled by `Except String`, fuel models loop iteration.
* `src/macros.rs` — `TexMacro` (the Rust `Macro`), `parse_param_list`,
  `define`.
-/

namespace Textile

/-- `u32::MAX`, the `Bounded::max_value()` of the index type actually used
for the category table (`IntIntervalMap<u32, Category>`). -/
def U32MAX : Nat := 4294967295

/-- The sixteen TeX category codes (`enum Category` in `src/token.rs`). -/
inductive Category where
  | Cat0 | Cat1 | Cat2 | Cat3 | Cat4 | Cat5 | Cat6 | Cat7
  | Cat8 | Cat9 | Cat10 | Cat11 | Cat12 | Cat13 | Cat14 | Cat15
deriving DecidableEq, Repr

/-- `struct IntIntervalMap<Idx, V> { intervals: Vec<(Idx, V)> }`:
an ordered list of `(upper_bound, value)` pairs. -/
structure IntIntervalMap (V : Type) where
  intervals : List (Nat × V)
deriving DecidableEq, Repr

/-- `IntIntervalMap::new`: a single interval up to `Idx::max_value()`. -/
def IntIntervalMap.new (maxVal : Nat) (v : V) : IntIntervalMap V :=
  ⟨[(maxVal, v)]⟩

/-- The body of `defrag`'s fold: `u`/`v` is the entry currently at the back
of `result`; a following entry with an equal value only moves the upper
bound (`last.0 = upper`), a differing entry is pushed. -/
def defragAux [DecidableEq V] (u : Nat) (v : V) : List (Nat × V) → List (Nat × V)
  | [] => [(u, v)]
  | (u2, v2) :: rest =>
    if v = v2 then defragAux u2 v rest else (u, v) :: defragAux u2 v2 rest

/-- `IntIntervalMap::defrag` on the raw interval list. -/
def defragGo [DecidableEq V] : List (Nat × V) → List (Nat × V)
  | [] => []
  | (u, v) :: rest => defragAux u v rest

/-- `IntIntervalMap::defrag`: merge adjacent intervals of equal value. -/
def IntIntervalMap.defrag [DecidableEq V] (m : IntIntervalMap V) : IntIntervalMap V :=
  ⟨defragGo m.intervals⟩

/-- The loop body of `IntIntervalMap::assign`: `lower` is the running
entry of `lower_thresholds` (initially `Idx::min_value() = 0`, afterwards
the previous upper bound); the four `(start_in, end_in)` cases are the
`match` of the source. -/
def assignGo (rstart rend : Nat) (newv : V) : Nat → List (Nat × V) → List (Nat × V)
  | _, [] => []
  | lower, (upper, value) :: rest =>
    (if rstart ≥ lower then
       if rend < upper then
         [(rstart, value), (rend, newv), (upper, value)]
       else if rstart < upper then
         [(rstart, value), (upper, newv)]
       else
         [(upper, value)]
     else
       if rend < upper then
         if rend < lower then
           [(upper, value)]
         else
           [(rend, newv), (upper, value)]
       else
         [(rend, newv)]) ++ assignGo rstart rend newv upper rest

/-- `IntIntervalMap::assign(range, new_value)` with `range = rstart..rend`
(a half-open Rust `Range`), followed by the `defrag` compaction pass. -/
def IntIntervalMap.assign [DecidableEq V] (m : IntIntervalMap V)
    (rstart rend : Nat) (newv : V) : IntIntervalMap V :=
  IntIntervalMap.defrag ⟨assignGo rstart rend newv 0 m.intervals⟩

/-- `IntIntervalMap::assign_single(single, value)`:
`assign(single..single + Idx::one(), value)`. -/
def IntIntervalMap.assign_single [DecidableEq V] (m : IntIntervalMap V)
    (p : Nat) (v : V) : IntIntervalMap V :=
  m.assign p (p + 1) v

/-- The loop of `IntIntervalMap::get`: `last` starts at
`Idx::min_value() = 0` and is set to each upper bound in turn; the loop
returns the first entry with `index >= last && index < i`. -/
def getGo (index : Nat) : Nat → List (Nat × V) → Option V
  | _, [] => none
  | last, (i, v) :: rest =>
    if index ≥ last ∧ index < i then some v else getGo index i rest

/-- `self.intervals.iter().last()` used by `get`'s fallback. -/
def lastEntry? : List (Nat × V) → Option (Nat × V)
  | [] => none
  | [e] => some e
  | _ :: e :: rest => lastEntry? (e :: rest)

/-- `IntIntervalMap::get`.  `none` corresponds exactly to the
`expect("index out of bounds, ...")` panic (empty interval list). -/
def IntIntervalMap.get? (m : IntIntervalMap V) (index : Nat) : Option V :=
  match getGo index 0 m.intervals with
  | some v => some v
  | none => (lastEntry? m.intervals).map Prod.snd

/-- Specification-side helper: the first interval whose upper bound
strictly exceeds `index` (no running lower bound). -/
def lookupFirst (index : Nat) : List (Nat × V) → Option V
  | [] => none
  | (i, v) :: rest => if index < i then some v else lookupFirst index rest

/-- Boolean check: upper bounds weakly increasing from `lb`. -/
def lbSorted : Nat → List (Nat × V) → Bool
  | _, [] => true
  | lb, (u, _) :: rest => decide (lb ≤ u) && lbSorted u rest

/-- Boolean check: upper bounds strictly increasing. -/
def strictSorted : List (Nat × V) → Bool
  | [] => true
  | [_] => true
  | (u1, _) :: (u2, v2) :: rest => decide (u1 < u2) && strictSorted ((u2, v2) :: rest)

/-- Boolean check: no two adjacent entries carry the same value. -/
def noAdjDup [DecidableEq V] : List (Nat × V) → Bool
  | [] => true
  | [_] => true
  | (_, v1) :: (u2, v2) :: rest => decide (v1 ≠ v2) && noAdjDup ((u2, v2) :: rest)

/-- One `assign`/`assign_single` call on a category table. -/
inductive AssignOp (V : Type) where
  | range (lo hi : Nat) (v : V)
  | single (p : Nat) (v : V)
deriving DecidableEq, Repr

/-- The value written by an operation. -/
def AssignOp.val : AssignOp V → V
  | .range _ _ v => v
  | .single _ v => v

/-- Execute one operation on a map. -/
def AssignOp.apply [DecidableEq V] (m : IntIntervalMap V) : AssignOp V → IntIntervalMap V
  | .range lo hi v => m.assign lo hi v
  | .single p v => m.assign_single p v

/-- Execute a call sequence (oldest first). -/
def applyOps [DecidableEq V] (m : IntIntervalMap V) (ops : List (AssignOp V)) :
    IntIntervalMap V :=
  ops.foldl AssignOp.apply m

/-- Well-formedness of a call as it can actually be issued on a `u32` map:
a non-inverted, in-range `Range<u32>`, resp. a point whose successor still
fits in `u32`. -/
def AssignOp.WF (M : Nat) : AssignOp V → Prop
  | .range lo hi _ => lo ≤ hi ∧ hi ≤ M
  | .single p _ => p < M

instance (M : Nat) : DecidablePred (AssignOp.WF (V := V) M) := fun op =>
  match op with
  | .range _ _ _ => inferInstanceAs (Decidable (_ ∧ _))
  | .single _ _ => inferInstanceAs (Decidable (_ < _))

/-- Does the operation's range cover the point `p`? -/
def AssignOp.covers (p : Nat) : AssignOp V → Bool
  | .range lo hi _ => decide (lo ≤ p ∧ p < hi)
  | .single q _ => decide (q ≤ p ∧ p < q + 1)

/-- Specification: the value of the most recent covering assignment, or
the construction default. -/
def specGet (d : V) (ops : List (AssignOp V)) (p : Nat) : V :=
  ops.foldl (fun acc op => if op.covers p then op.val else acc) d

/-- The map invariant used below: non-empty, weakly sorted upper bounds,
and the last upper bound equal to the domain maximum `M`. -/
def MapWF (M : Nat) (m : IntIntervalMap V) : Prop :=
  m.intervals ≠ [] ∧ lbSorted 0 m.intervals = true ∧
    (lastEntry? m.intervals).map Prod.fst = some M

/-! ## Tokenizer (`src/token.rs`) -/

/-- Code points of a Lean string literal (used only to write inputs and
expected tokens readably). -/
def strChars (s : String) : List Nat := s.data.map Char.toNat

/-- `OtherToken`: diagnostic tokens. -/
inductive OtherToken where
  | Comment (text : List Nat)
  | IgnoredCharacter (c : Nat)
  | InvalidCharacter (c : Nat)
  | Skipped (text : List Nat)
deriving DecidableEq, Repr

/-- `struct Span` of `src/token.rs` (`stop` is the Rust field `end`). -/
structure Span where
  line : Nat
  start : Nat
  stop : Nat
deriving DecidableEq, Repr

/-- `enum Token` of `src/token.rs`. -/
inductive Token where
  | ControlSequence (name : List Nat) (loc : Span)
  | Character (c : Nat) (cat : Category)
  | Parameter (n : Nat)
  | Other (o : OtherToken) (loc : Span)
deriving DecidableEq, Repr

/-- `enum TokenizerState`. -/
inductive TokenizerState where
  | LineStart
  | LineMiddle
  | SkippingBlanks
deriving DecidableEq, Repr

/-- `struct Tokenizer`.  `lines` is the remaining line source (the Rust
iterator), `line`/`pos` the current buffer and cursor, `token_buffer` the
lookahead queue (Rust pushes with `insert(0, ·)` and pops with `pop()`,
i.e. front-insert / back-remove). -/
structure Tokenizer where
  category_map : IntIntervalMap Category
  state : TokenizerState
  lines : List (List Nat)
  line : List Nat
  line_count : Nat
  pos : Nat
  endlinechar : Nat
  token_buffer : List Token
deriving DecidableEq, Repr

/-- Panic message of the `expect` in `parse_superscript_char`
(`from_str_radix` failure; the byte-boundary slice panic on the same
input class is folded into the same error state). -/
def hexPanicMsg : String := "parse error with superscript-escaped hex character"

/-- Panic message of the `expect` in `IntIntervalMap::get`. -/
def mapPanicMsg : String := "index out of bounds"

/-- Out-of-fuel marker for the loop embeddings (never reached in any of
the theorems below; every evaluation is run with sufficient fuel). -/
def fuelMsg : String := "fuel exhausted"

/-- Rust `char::is_ascii_hexdigit`. -/
def isAsciiHexdigit (c : Nat) : Bool :=
  (48 ≤ c && c ≤ 57) || (97 ≤ c && c ≤ 102) || (65 ≤ c && c ≤ 70)

/-- Rust `char::is_lowercase` (Unicode `Lowercase` property), written out
for the Latin-1 range `0..=255`; all theorems quantifying over scanner
input restrict the characters involved to this range. -/
def rustIsLowercase (c : Nat) : Bool :=
  (97 ≤ c && c ≤ 122) || c == 170 || c == 181 || c == 186 ||
    (223 ≤ c && c ≤ 246) || (248 ≤ c && c ≤ 255)

/-- Rust `char::is_numeric` (Unicode categories Nd/Nl/No), written out for
the Latin-1 range `0..=255`: the ASCII digits and the superscript/fraction
characters 0xB2, 0xB3, 0xB9, 0xBC, 0xBD, 0xBE. -/
def rustIsNumeric (c : Nat) : Bool :=
  (48 ≤ c && c ≤ 57) || c == 178 || c == 179 || c == 185 ||
    c == 188 || c == 189 || c == 190

/-- The per-character test of `are_hexdigits`:
`(c.is_ascii_hexdigit() && c.is_lowercase()) || c.is_numeric()`. -/
def hexCheck (c : Nat) : Bool :=
  (isAsciiHexdigit c && rustIsLowercase c) || rustIsNumeric c

/-- Value of an ASCII hex digit. -/
def hexVal (c : Nat) : Nat :=
  if c ≤ 57 then c - 48 else if 97 ≤ c then c - 87 else c - 55

/-- The rest of the current line (`&self.line[self.pos..]`). -/
def Tokenizer.input (st : Tokenizer) : List Nat :=
  st.line.drop st.pos

/-- `Tokenizer::cat`: category lookup; `Except.error` is the panic of
`IntIntervalMap::get` on an empty interval list. -/
def Tokenizer.cat (st : Tokenizer) (c : Nat) : Except String Category :=
  match st.category_map.get? c with
  | some v => Except.ok v
  | none => Except.error mapPanicMsg

/-- `Tokenizer::parse_superscript_char`.  Returns the decoded character
and the consumed length; `Except.error` is the `from_str_radix`
panic (reached when both following characters pass `hexCheck` but the
2-byte slice does not parse as hexadecimal, e.g. Unicode numerics). -/
def Tokenizer.parse_superscript_char (st : Tokenizer) :
    Except String (Option (Nat × Nat)) := do
  match st.input with
  | [] => Except.ok none
  | c_start :: rest => do
    let cs ← st.cat c_start
    if cs = Category.Cat7 then
      match rest with
      | c2 :: rest2 =>
        if c2 = c_start then
          let n1 := rest2.head?
          let n2 := (rest2.drop 1).head?
          let are_hexdigits := ((n1.map hexCheck).getD false) &&
            ((n2.map hexCheck).getD false)
          if are_hexdigits then
            match n1, n2 with
            | some a, some b =>
              if isAsciiHexdigit a && isAsciiHexdigit b then
                Except.ok (some (16 * hexVal a + hexVal b, 4))
              else
                Except.error hexPanicMsg
            | _, _ => Except.error hexPanicMsg
          else
            match n1 with
            | some c =>
              if 128 ≤ c then Except.ok none
              else if c < 64 then Except.ok (some (c + 64, 3))
              else Except.ok (some (c - 64, 3))
            | none => Except.ok none
        else Except.ok none
      | [] => Except.ok none
    else Except.ok none

/-- `Tokenizer::pop_char`: superscript escape first, else raw character. -/
def Tokenizer.pop_char (st : Tokenizer) :
    Except String (Option (Nat × Tokenizer)) := do
  match ← st.parse_superscript_char with
  | some (c, l) => Except.ok (some (c, { st with pos := st.pos + l }))
  | none =>
    match st.input.head? with
    | some c => Except.ok (some (c, { st with pos := st.pos + 1 }))
    | none => Except.ok none

/-- `Tokenizer::look_ahead`: same decoding, no consumption. -/
def Tokenizer.look_ahead (st : Tokenizer) : Except String (Option Nat) := do
  match ← st.parse_superscript_char with
  | some (c, _) => Except.ok (some c)
  | none => Except.ok st.input.head?

/-- `line.trim_end_matches(' ')` (the truncation of `next_line`). -/
def trimEndSpaces (l : List Nat) : List Nat :=
  (l.reverse.dropWhile (fun c => c == 32)).reverse

/-- `Tokenizer::next_line`: state to `LineStart`, pull the next raw line,
strip trailing spaces, append `endlinechar` when its code is at most 255.
Returns the Rust `bool` (false at end of input). -/
def Tokenizer.next_line (st : Tokenizer) : Bool × Tokenizer :=
  match st.lines with
  | [] => (false, { st with state := TokenizerState.LineStart })
  | raw :: rest =>
    let l := trimEndSpaces raw
    let l := if st.endlinechar ≤ 255 then l ++ [st.endlinechar] else l
    (true,
      { st with
        state := TokenizerState.LineStart
        lines := rest
        line := l
        pos := 0
        line_count := st.line_count + 1 })

/-- `Tokenizer::here`. -/
def Tokenizer.here (st : Tokenizer) : Span :=
  ⟨st.line_count, st.pos, st.pos⟩

/-- `Tokenizer::push` (`token_buffer.insert(0, token)`). -/
def Tokenizer.push (st : Tokenizer) (t : Token) : Tokenizer :=
  { st with token_buffer := t :: st.token_buffer }

/-- `token_buffer.pop()` (removes from the back of the `Vec`). -/
def Tokenizer.bufferPop (st : Tokenizer) : Option (Token × Tokenizer) :=
  match st.token_buffer.getLast? with
  | some t => some (t, { st with token_buffer := st.token_buffer.dropLast })
  | none => none

/-- The acquisition loop at the top of `next`: pop a character, loading
further lines as needed; also returns the `here` span taken after the last
(successful or initial) line load. -/
def Tokenizer.acquire : Nat → Tokenizer → Span →
    Except String (Option (Nat × Span) × Tokenizer)
  | 0, _, _ => Except.error fuelMsg
  | fuel + 1, st, hereArg => do
    match ← st.pop_char with
    | some (c, st') => Except.ok (some (c, hereArg), st')
    | none =>
      match st.next_line with
      | (false, st') => Except.ok (none, st')
      | (true, st') =>
        let st'' := { st' with state := TokenizerState.LineStart }
        Tokenizer.acquire fuel st'' st''.here

/-- The two identical lookahead-absorption loops of `next` (control-word
letters with `target = Cat11`, whitespace runs with `target = Cat10`):
while the looked-ahead character has category `target`, pop it and append
it to `acc`. -/
def Tokenizer.absorbCat (target : Category) :
    Nat → Tokenizer → List Nat → Except String (List Nat × Tokenizer)
  | 0, _, _ => Except.error fuelMsg
  | fuel + 1, st, acc => do
    match ← st.look_ahead with
    | some c => do
      let cc ← st.cat c
      if cc = target then do
        let r ← st.pop_char
        let st' := (r.map Prod.snd).getD st
        Tokenizer.absorbCat target fuel st' (acc ++ [c])
      else Except.ok (acc, st)
    | none => Except.ok (acc, st)

/-- The rest-of-line consumption loops of the `Cat5` and `Cat14` branches:
pop characters into `acc` until the line is exhausted. -/
def Tokenizer.consumeRest : Nat → Tokenizer → List Nat →
    Except String (List Nat × Tokenizer)
  | 0, _, _ => Except.error fuelMsg
  | fuel + 1, st, acc => do
    match ← st.pop_char with
    | some (c, st') => Tokenizer.consumeRest fuel st' (acc ++ [c])
    | none => Except.ok (acc, st)

/-- `<Tokenizer as Iterator>::next`.  Returns `none` at end of input.
The self-recursion at the end of the Rust `next` (drain the buffer after a
scan step) is the tail call on `fuel`. -/
def Tokenizer.nextTok : Nat → Tokenizer → Except String (Option Token × Tokenizer)
  | 0, _ => Except.error fuelMsg
  | fuel + 1, st =>
    match st.bufferPop with
    | some (t, st') => Except.ok (some t, st')
    | none => do
      match ← Tokenizer.acquire (fuel + 1) st st.here with
      | (none, stE) => Except.ok (none, stE)
      | (some (chr, here0), st1) => do
        let here1 := { here0 with stop := st1.pos - 1 }
        let cat ← st1.cat chr
        let st2 ←
          match cat with
          | Category.Cat0 => do
            match ← st1.pop_char with
            | none => Except.ok (st1.push (Token.ControlSequence [] here1))
            | some (c, stA) => do
              let catc ← stA.cat c
              match catc with
              | Category.Cat11 => do
                let (content, stB) ← Tokenizer.absorbCat Category.Cat11 (fuel + 1) stA [c]
                let stC := { stB with state := TokenizerState.SkippingBlanks }
                Except.ok (stC.push (Token.ControlSequence content
                  { here1 with stop := stC.pos - 1 }))
              | Category.Cat10 =>
                let stB := { stA with state := TokenizerState.SkippingBlanks }
                Except.ok (stB.push (Token.ControlSequence [c]
                  { here1 with stop := stB.pos - 1 }))
              | _ =>
                let stB := { stA with state := TokenizerState.LineMiddle }
                Except.ok (stB.push (Token.ControlSequence [c]
                  { here1 with stop := stB.pos - 1 }))
          | Category.Cat5 => do
            let (skipped, stA) ← Tokenizer.consumeRest (fuel + 1) st1 []
            let stB :=
              if skipped ≠ [] then
                stA.push (Token.Other (OtherToken.Skipped skipped)
                  { here1 with stop := stA.pos - 1 })
              else stA
            match stB.state with
            | TokenizerState.LineStart =>
              Except.ok (stB.push (Token.ControlSequence (strChars "par") here1))
            | TokenizerState.LineMiddle => do
              let c10 ← stB.cat 32
              Except.ok (stB.push (Token.Character 32 c10))
            | TokenizerState.SkippingBlanks => Except.ok stB
          | Category.Cat9 =>
            Except.ok (st1.push (Token.Other (OtherToken.IgnoredCharacter chr) here1))
          | Category.Cat10 =>
            match st1.state with
            | TokenizerState.LineMiddle => do
              let stA := { st1 with state := TokenizerState.SkippingBlanks }
              let c10 ← stA.cat 32
              Except.ok (stA.push (Token.Character 32 c10))
            | _ => do
              let (ws, stA) ← Tokenizer.absorbCat Category.Cat10 (fuel + 1) st1 [chr]
              Except.ok (stA.push (Token.Other (OtherToken.Skipped ws)
                { here1 with stop := stA.pos - 1 }))
          | Category.Cat14 => do
            let (comment, stA) ← Tokenizer.consumeRest (fuel + 1) st1 []
            Except.ok (stA.push (Token.Other (OtherToken.Comment comment)
              { here1 with stop := stA.pos - 1 }))
          | Category.Cat15 =>
            Except.ok (st1.push (Token.Other (OtherToken.InvalidCharacter chr) here1))
          | _ =>
            let stA := { st1 with state := TokenizerState.LineMiddle }
            Except.ok (stA.push (Token.Character chr cat))
        Tokenizer.nextTok fuel st2

/-- Drain the token stream (the `collect()` of the Rust tests). -/
def Tokenizer.collectTokens : Nat → Tokenizer → Except String (List Token)
  | 0, _ => Except.error fuelMsg
  | fuel + 1, st => do
    match ← Tokenizer.nextTok (fuel + 1) st with
    | (some t, st') => do
      let ts ← Tokenizer.collectTokens fuel st'
      Except.ok (t :: ts)
    | (none, _) => Except.ok []

/-- The default category table built by `Tokenizer::new` (the `assign!`
macro: a single character uses `assign_single`, a range `lo, hi` uses
`assign(lo .. hi + 1)`). -/
def defaultCategoryMap : IntIntervalMap Category :=
  let m := IntIntervalMap.new U32MAX Category.Cat12
  let m := m.assign_single 92 Category.Cat0
  let m := m.assign_single 123 Category.Cat1
  let m := m.assign_single 125 Category.Cat2
  let m := m.assign_single 36 Category.Cat3
  let m := m.assign_single 38 Category.Cat4
  let m := m.assign_single 10 Category.Cat5
  let m := m.assign_single 13 Category.Cat5
  let m := m.assign_single 35 Category.Cat6
  let m := m.assign_single 94 Category.Cat7
  let m := m.assign_single 95 Category.Cat8
  let m := m.assign_single 0 Category.Cat9
  let m := m.assign_single 32 Category.Cat10
  let m := m.assign_single 9 Category.Cat10
  let m := m.assign 97 123 Category.Cat11
  let m := m.assign 65 91 Category.Cat11
  let m := m.assign 48 58 Category.Cat12
  let m := m.assign 48 58 Category.Cat12
  let m := m.assign 58 65 Category.Cat12
  let m := m.assign_single 126 Category.Cat13
  let m := m.assign_single 37 Category.Cat14
  let m := m.assign 1 9 Category.Cat15
  let m := m.assign_single 11 Category.Cat15
  let m := m.assign_single 12 Category.Cat15
  let m := m.assign 14 32 Category.Cat15
  m

/-- `Tokenizer::new`. -/
def Tokenizer.new (lines : List (List Nat)) : Tokenizer :=
  { category_map := defaultCategoryMap
    state := TokenizerState.LineStart
    lines := lines
    line := []
    line_count := 0
    pos := 0
    endlinechar := 13
    token_buffer := [] }

/-- `TokenizerInteraction::catcode`. -/
def Tokenizer.catcode (st : Tokenizer) (c : Nat) (cat : Category) : Tokenizer :=
  { st with category_map := st.category_map.assign_single c cat }

/-- `TokenizerInteraction::set_endlinechar`. -/
def Tokenizer.set_endlinechar (st : Tokenizer) (c : Nat) : Tokenizer :=
  { st with endlinechar := c }

/-- `TokenizerInteraction::get_endlinechar`. -/
def Tokenizer.get_endlinechar (st : Tokenizer) : Nat :=
  st.endlinechar

/-! ## Macro definitions (`src/macros.rs`) -/

/-- The `Span` of `src/macros.rs` (line/column pairs; `stop` is the Rust
field `end`). -/
structure MSpan where
  start : Nat × Nat
  stop : Nat × Nat
deriving DecidableEq, Repr

/-- `enum MacroParameter`. -/
inductive MacroParameter where
  | Undelimited (n : Nat)
  | Delimited (n : Nat) (delim : List Token)
deriving DecidableEq, Repr

/-- `enum ExpansionError` (spelling as in the source). -/
inductive ExpansionError where
  | InvalidDefName
  | ExplicitBracesInParameterText
  | NonConsequitiveParameterNumber
  | InvalidParameterNumber
deriving DecidableEq, Repr

/-- `struct Macro` of `src/macros.rs` (named `TexMacro` here). -/
structure TexMacro where
  control_sequence : List Nat
  parameters : List MacroParameter
  replacement_text : List Token
  location : MSpan
deriving DecidableEq, Repr

/-- The `finish_param` closure: an empty delimiter list yields an
undelimited parameter, otherwise the drained delimiter list is attached. -/
def finish_param (number : Nat) (delim : List Token)
    (params : List MacroParameter) : List MacroParameter :=
  if delim = [] then params ++ [MacroParameter.Undelimited number]
  else params ++ [MacroParameter.Delimited number delim]

/-- The loop of `Macro::parse_param_list`, with the mutable locals
(`delimiter`, `param_number`, `arg_start`, `params`) threaded explicitly.
The `arg_start` block is the `if` branch, the other five match arms follow
in source order. -/
def ppl_go : List Token → List Token → Option Nat → Bool → List MacroParameter →
    Except ExpansionError (List MacroParameter)
  | [], delim, pnum, _, params =>
    match pnum with
    | some n => Except.ok (finish_param n delim params)
    | none => Except.ok params
  | t :: rest, delim, pnum, arg_start, params =>
    if arg_start then
      match pnum, t with
      | none, Token.Character c Category.Cat12 =>
        if (48 ≤ c ∧ c ≤ 57) ∧ 48 < c then
          ppl_go rest delim (some (c - 48)) false params
        else Except.error ExpansionError.InvalidParameterNumber
      | _, _ => Except.error ExpansionError.InvalidParameterNumber
    else
      match pnum, t with
      | none, Token.Character _ Category.Cat6 =>
        ppl_go rest delim none true params
      | some n, Token.Character _ Category.Cat6 =>
        ppl_go rest [] none true (finish_param n delim params)
      | _, Token.Character _ Category.Cat1 =>
        Except.error ExpansionError.ExplicitBracesInParameterText
      | _, Token.Character _ Category.Cat2 =>
        Except.error ExpansionError.ExplicitBracesInParameterText
      | _, t => ppl_go rest (delim ++ [t]) pnum arg_start params

/-- `Macro::parse_param_list`. -/
def parse_param_list (param_text : List Token) :
    Except ExpansionError (List MacroParameter) :=
  ppl_go param_text [] none false []

/-- `Macro::define`. -/
def TexMacro.define (control_sequence : Token)
    (parameter_text replacement_text : List Token) :
    Except ExpansionError TexMacro :=
  match control_sequence with
  | Token.ControlSequence name span =>
    match parse_param_list parameter_text with
    | Except.ok params =>
      Except.ok
        { control_sequence := name
          parameters := params
          replacement_text := replacement_text
          location := { start := (span.line, span.start), stop := (0, 0) } }
    | Except.error e => Except.error e
  | _ => Except.error ExpansionError.InvalidDefName

/-- The follower test of the `arg_start` arm, as a function: `some n` iff
the token is a `Character` of category `Cat12` whose value passes
`c.is_ascii_digit() && c > '0'` (then `n` is the recorded number). -/
def digitFollower? : Token → Option Nat
  | Token.Character c Category.Cat12 =>
    if (48 ≤ c ∧ c ≤ 57) ∧ 48 < c then some (c - 48) else none
  | _ => none

/-! ## Interval-map lemmas -/

section IntervalMapLemmas

variable {V : Type}

/-- The `get` loop with any admissible running lower bound computes the
first entry whose upper bound exceeds the index. -/
theorem getGo_eq_lookupFirst (p : Nat) :
    ∀ (l : List (Nat × V)) (last : Nat), last ≤ p →
      getGo p last l = lookupFirst p l := by
  intro l
  induction l with
  | nil => intro last _; rfl
  | cons hd rest ih =>
    intro last hle
    obtain ⟨u, v⟩ := hd
    simp only [getGo, lookupFirst]
    split_ifs with h1 h2 h2
    · rfl
    · omega
    · omega
    · exact ih u (by omega)

theorem lastEntry?_mem : ∀ (l : List (Nat × V)) (e : Nat × V),
    lastEntry? l = some e → e ∈ l := by
  intro l
  induction l with
  | nil => intro e h; simp [lastEntry?] at h
  | cons hd rest ih =>
    intro e h
    cases rest with
    | nil =>
      simp only [lastEntry?, Option.some.injEq] at h
      simp [h]
    | cons hd2 t =>
      have : lastEntry? (hd :: hd2 :: t) = lastEntry? (hd2 :: t) := rfl
      rw [this] at h
      exact List.mem_cons_of_mem _ (ih e h)

theorem lastEntry?_isSome : ∀ (l : List (Nat × V)), l ≠ [] →
    ∃ e, lastEntry? l = some e := by
  intro l
  induction l with
  | nil => intro h; exact absurd rfl h
  | cons hd rest ih =>
    intro _
    cases rest with
    | nil => exact ⟨hd, rfl⟩
    | cons hd2 t =>
      obtain ⟨e, he⟩ := ih (by simp)
      exact ⟨e, he⟩

theorem lastEntry?_cons_fst : ∀ (t : List (Nat × V)) (u : Nat) (x y : V),
    (lastEntry? ((u, x) :: t)).map Prod.fst =
      (lastEntry? ((u, y) :: t)).map Prod.fst := by
  intro t u x y
  cases t with
  | nil => rfl
  | cons hd t' => rfl

theorem lastEntry?_append_right : ∀ (xs ys : List (Nat × V)), ys ≠ [] →
    lastEntry? (xs ++ ys) = lastEntry? ys := by
  intro xs
  induction xs with
  | nil => intro ys _; rfl
  | cons x xs' ih =>
    intro ys hys
    obtain ⟨c, t', ht⟩ : ∃ c t', xs' ++ ys = c :: t' := by
      cases hxy : xs' ++ ys with
      | nil => exact absurd (List.append_eq_nil.mp hxy).2 hys
      | cons c t' => exact ⟨c, t', rfl⟩
    calc lastEntry? (x :: (xs' ++ ys)) = lastEntry? (xs' ++ ys) := by rw [ht]; rfl
      _ = lastEntry? ys := ih ys hys

theorem lookupFirst_isSome (p : Nat) : ∀ (l : List (Nat × V)),
    (∃ e ∈ l, p < e.1) → (lookupFirst p l).isSome := by
  intro l
  induction l with
  | nil => intro h; simp at h
  | cons hd rest ih =>
    intro h
    obtain ⟨u, v⟩ := hd
    simp only [lookupFirst]
    split_ifs with h1
    · rfl
    · apply ih
      obtain ⟨e, he, hpe⟩ := h
      rcases List.mem_cons.mp he with rfl | hmem
      · exact absurd hpe (by simpa using h1)
      · exact ⟨e, hmem, hpe⟩

theorem lookupFirst_eq_none (p : Nat) : ∀ (l : List (Nat × V)),
    (∀ e ∈ l, e.1 ≤ p) → lookupFirst p l = none := by
  intro l
  induction l with
  | nil => intro _; rfl
  | cons hd rest ih =>
    intro h
    obtain ⟨u, v⟩ := hd
    simp only [lookupFirst]
    have hu : u ≤ p := h (u, v) (by simp)
    rw [if_neg (by omega)]
    exact ih fun e he => h e (List.mem_cons_of_mem _ he)

theorem lbSorted_le_last : ∀ (l : List (Nat × V)) (lb M : Nat),
    lbSorted lb l = true → (lastEntry? l).map Prod.fst = some M →
    ∀ e ∈ l, e.1 ≤ M := by
  intro l
  induction l with
  | nil => intro lb M _ h; simp [lastEntry?] at h
  | cons hd rest ih =>
    intro lb M hs hlast e he
    obtain ⟨u, v⟩ := hd
    simp only [lbSorted, Bool.and_eq_true, decide_eq_true_eq] at hs
    cases rest with
    | nil =>
      simp only [lastEntry?, Option.map_some', Option.some.injEq] at hlast
      rcases List.mem_singleton.mp he with rfl
      simp [hlast]
    | cons hd2 t =>
      have hlast' : (lastEntry? (hd2 :: t)).map Prod.fst = some M := hlast
      rcases List.mem_cons.mp he with rfl | hmem
      · obtain ⟨u2, v2⟩ := hd2
        simp only [lbSorted, Bool.and_eq_true, decide_eq_true_eq] at hs
        have h2 : u2 ≤ M :=
          ih u M (by simp [lbSorted, hs.2.1, hs.2.2]) hlast' (u2, v2) (by simp)
        simpa using le_trans hs.2.1 h2
      · exact ih u M hs.2 hlast' e hmem

end IntervalMapLemmas

section DefragLemmas

variable {V : Type} [DecidableEq V]

theorem defragAux_ne_nil : ∀ (rest : List (Nat × V)) (u : Nat) (v : V),
    defragAux u v rest ≠ [] := by
  intro rest
  induction rest with
  | nil => intro u v; simp [defragAux]
  | cons hd t ih =>
    intro u v
    obtain ⟨u2, v2⟩ := hd
    simp only [defragAux]
    split_ifs with h
    · exact ih u2 v
    · simp

theorem defragAux_head_val : ∀ (rest : List (Nat × V)) (u : Nat) (v : V),
    ∃ u', (defragAux u v rest).head? = some (u', v) := by
  intro rest
  induction rest with
  | nil => intro u v; exact ⟨u, rfl⟩
  | cons hd t ih =>
    intro u v
    obtain ⟨u2, v2⟩ := hd
    simp only [defragAux]
    split_ifs with h
    · exact ih u2 v
    · exact ⟨u, rfl⟩

theorem defragAux_lookup (p : Nat) : ∀ (rest : List (Nat × V)) (u : Nat) (v : V),
    lbSorted u rest = true →
    lookupFirst p (defragAux u v rest) = lookupFirst p ((u, v) :: rest) := by
  have hL : ∀ (L : List (Nat × V)) (a : Nat) (b : V),
      lookupFirst p ((a, b) :: L) = if p < a then some b else lookupFirst p L :=
    fun _ _ _ => rfl
  intro rest
  induction rest with
  | nil => intro u v _; rfl
  | cons hd t ih =>
    intro u v hs
    obtain ⟨u2, v2⟩ := hd
    simp only [lbSorted, Bool.and_eq_true, decide_eq_true_eq] at hs
    simp only [defragAux]
    split_ifs with h
    · subst h
      rw [ih u2 v hs.2, hL, hL, hL]
      split_ifs with h1 h2 h2 <;> first | rfl | omega
    · rw [hL, hL, ih u2 v2 hs.2]

theorem defragAux_lbSorted : ∀ (rest : List (Nat × V)) (u : Nat) (v : V) (lb : Nat),
    lb ≤ u → lbSorted u rest = true →
    lbSorted lb (defragAux u v rest) = true := by
  intro rest
  induction rest with
  | nil => intro u v lb hlb _; simp [defragAux, lbSorted, hlb]
  | cons hd t ih =>
    intro u v lb hlb hs
    obtain ⟨u2, v2⟩ := hd
    simp only [lbSorted, Bool.and_eq_true, decide_eq_true_eq] at hs
    simp only [defragAux]
    split_ifs with h
    · exact ih u2 v lb (by omega) hs.2
    · simp only [lbSorted, Bool.and_eq_true, decide_eq_true_eq]
      exact ⟨hlb, ih u2 v2 u hs.1 hs.2⟩

theorem defragAux_noAdjDup : ∀ (rest : List (Nat × V)) (u : Nat) (v : V),
    noAdjDup (defragAux u v rest) = true := by
  intro rest
  induction rest with
  | nil => intro u v; simp [defragAux, noAdjDup]
  | cons hd t ih =>
    intro u v
    obtain ⟨u2, v2⟩ := hd
    simp only [defragAux]
    split_ifs with h
    · exact ih u2 v
    · obtain ⟨u', hd'⟩ := defragAux_head_val t u2 v2
      obtain ⟨d, dt, hD⟩ : ∃ d dt, defragAux u2 v2 t = d :: dt := by
        cases hq : defragAux u2 v2 t with
        | nil => exact absurd hq (defragAux_ne_nil t u2 v2)
        | cons d dt => exact ⟨d, dt, rfl⟩
      have hdv : d = (u', v2) := by
        rw [hD] at hd'
        simpa using hd'
      rw [hD, hdv]
      simp only [noAdjDup, Bool.and_eq_true, decide_eq_true_eq]
      constructor
      · simpa using h
      · have := ih u2 v2
        rw [hD, hdv] at this
        exact this

theorem defragAux_lastFst : ∀ (rest : List (Nat × V)) (u : Nat) (v : V),
    (lastEntry? (defragAux u v rest)).map Prod.fst =
      (lastEntry? ((u, v) :: rest)).map Prod.fst := by
  intro rest
  induction rest with
  | nil => intro u v; rfl
  | cons hd t ih =>
    intro u v
    obtain ⟨u2, v2⟩ := hd
    simp only [defragAux]
    split_ifs with h
    · rw [ih u2 v]
      have h1 : lastEntry? ((u, v) :: (u2, v2) :: t) = lastEntry? ((u2, v2) :: t) := rfl
      rw [h1, lastEntry?_cons_fst t u2 v v2]
    · obtain ⟨d, dt, hD⟩ : ∃ d dt, defragAux u2 v2 t = d :: dt := by
        cases hq : defragAux u2 v2 t with
        | nil => exact absurd hq (defragAux_ne_nil t u2 v2)
        | cons d dt => exact ⟨d, dt, rfl⟩
      have h1 : lastEntry? ((u, v) :: d :: dt) = lastEntry? (d :: dt) := rfl
      rw [hD, h1, ← hD, ih u2 v2]
      rfl

end DefragLemmas

section AssignLemmas

variable {V : Type}

/-- One-step unfolding of `assignGo` (used to rewrite exactly one loop
iteration at a time). -/
theorem assignGo_cons (rs re : Nat) (nv : V) (lower upper : Nat) (value : V)
    (rest : List (Nat × V)) :
    assignGo rs re nv lower ((upper, value) :: rest) =
      (if rs ≥ lower then
         if re < upper then
           [(rs, value), (re, nv), (upper, value)]
         else if rs < upper then
           [(rs, value), (upper, nv)]
         else
           [(upper, value)]
       else
         if re < upper then
           if re < lower then
             [(upper, value)]
           else
             [(re, nv), (upper, value)]
         else
           [(re, nv)]) ++ assignGo rs re nv upper rest := rfl

theorem assignGo_ne_nil (rs re : Nat) (nv : V) :
    ∀ (l : List (Nat × V)) (lower : Nat), l ≠ [] →
    assignGo rs re nv lower l ≠ [] := by
  intro l lower hne
  cases l with
  | nil => exact absurd rfl hne
  | cons hd rest =>
    obtain ⟨upper, value⟩ := hd
    simp only [assignGo]
    split_ifs <;> simp

theorem assignGo_lastFst (rs re M : Nat) (nv : V) (hre : re ≤ M) :
    ∀ (l : List (Nat × V)) (lower : Nat),
    (lastEntry? l).map Prod.fst = some M →
    (lastEntry? (assignGo rs re nv lower l)).map Prod.fst = some M := by
  intro l
  induction l with
  | nil => intro lower h; simp [lastEntry?] at h
  | cons hd rest ih =>
    intro lower hlast
    obtain ⟨upper, value⟩ := hd
    cases rest with
    | nil =>
      simp only [lastEntry?, Option.map_some', Option.some.injEq] at hlast
      subst hlast
      simp only [assignGo, List.append_nil]
      split_ifs with h1 h2 h3 h4 h5 <;> (simp [lastEntry?]; try omega)
    | cons hd2 t =>
      have hlast' : (lastEntry? (hd2 :: t)).map Prod.fst = some M := hlast
      have hrec := ih upper hlast'
      have hne : assignGo rs re nv upper (hd2 :: t) ≠ [] :=
        assignGo_ne_nil rs re nv (hd2 :: t) upper (by simp)
      rw [assignGo_cons]
      split_ifs <;> (rw [lastEntry?_append_right _ _ hne]; exact hrec)

theorem lookupFirst_cons (p a : Nat) (b : V) (L : List (Nat × V)) :
    lookupFirst p ((a, b) :: L) = if p < a then some b else lookupFirst p L := rfl

theorem exGt_tail (p upper : Nat) (value : V) (rest : List (Nat × V))
    (hex : ∃ e ∈ (upper, value) :: rest, p < e.1) (hup : upper ≤ p) :
    ∃ e ∈ rest, p < e.1 := by
  obtain ⟨e, he, hpe⟩ := hex
  rcases List.mem_cons.mp he with rfl | hmem
  · exact absurd hpe (by simp; omega)
  · exact ⟨e, hmem, hpe⟩

/-- `assign`'s loop keeps the upper bounds weakly sorted.  `prev` tracks
the upper bound of the entry pushed last: either at most the running lower
bound, or — after an interval swallowed whole — the range end. -/
theorem assignGo_lbSorted (rs re : Nat) (nv : V) (hle : rs ≤ re) :
    ∀ (l : List (Nat × V)) (lower prev : Nat),
    lbSorted lower l = true →
    (prev ≤ lower ∨ (rs < lower ∧ prev = re)) →
    lbSorted prev (assignGo rs re nv lower l) = true := by
  intro l
  induction l with
  | nil => intro lower prev _ _; rfl
  | cons hd rest ih =>
    intro lower prev hs hinv
    obtain ⟨upper, value⟩ := hd
    simp only [lbSorted, Bool.and_eq_true, decide_eq_true_eq] at hs
    rw [assignGo_cons]
    split_ifs with h1 h2 h3 h4 h5 <;>
      simp only [List.cons_append, List.nil_append, lbSorted, Bool.and_eq_true,
        decide_eq_true_eq] <;>
      rcases hinv with hp | ⟨hrl, hpr⟩ <;>
      first
        | exact ⟨by omega, by omega, by omega,
            ih upper upper hs.2 (Or.inl le_rfl)⟩
        | exact ⟨by omega, by omega, ih upper upper hs.2 (Or.inl le_rfl)⟩
        | exact ⟨by omega, ih upper upper hs.2 (Or.inl le_rfl)⟩
        | exact ⟨by omega, ih upper re hs.2 (Or.inr ⟨by omega, rfl⟩)⟩

/-- The central lemma: after one `assign` loop pass, lookup at any point
`p` at least `lower` (and below some upper bound of the input) yields the
new value on the assigned range and the old lookup elsewhere. -/
theorem lookupFirst_assignGo (rs re : Nat) (nv : V) (hle : rs ≤ re) :
    ∀ (l : List (Nat × V)) (lower p : Nat), lower ≤ p →
    (∃ e ∈ l, p < e.1) →
    lookupFirst p (assignGo rs re nv lower l) =
      if rs ≤ p ∧ p < re then some nv else lookupFirst p l := by
  intro l
  induction l with
  | nil => intro lower p _ hex; simp at hex
  | cons hd rest ih =>
    intro lower p hlow hex
    obtain ⟨upper, value⟩ := hd
    rw [assignGo_cons]
    by_cases hup : p < upper
    · split_ifs with h1 h2 h3 h4 h5 <;>
        simp only [List.cons_append, List.nil_append, lookupFirst_cons] <;>
        split_ifs <;> first | rfl | omega
    · have hih := ih upper p (by omega)
        (exGt_tail p upper value rest hex (by omega))
      split_ifs with h1 h2 h3 h4 h5 <;>
        simp only [List.cons_append, List.nil_append, lookupFirst_cons] <;>
        rw [hih] <;>
        split_ifs <;> first | rfl | omega

end AssignLemmas

section MapLemmas

variable {V : Type}

theorem MapWF_new (d : V) (M : Nat) : MapWF M (IntIntervalMap.new M d) := by
  refine ⟨by simp [IntIntervalMap.new], ?_, rfl⟩
  simp [IntIntervalMap.new, lbSorted]

theorem exists_gt_of_MapWF (M : Nat) (m : IntIntervalMap V) (h : MapWF M m)
    (p : Nat) (hp : p < M) : ∃ e ∈ m.intervals, p < e.1 := by
  obtain ⟨hne, _, hlast⟩ := h
  obtain ⟨e, he⟩ := lastEntry?_isSome m.intervals hne
  refine ⟨e, lastEntry?_mem m.intervals e he, ?_⟩
  rw [he] at hlast
  simp only [Option.map_some', Option.some.injEq] at hlast
  omega

theorem get?_eq_lookupFirst (m : IntIntervalMap V) (p : Nat)
    (h : ∃ e ∈ m.intervals, p < e.1) :
    m.get? p = lookupFirst p m.intervals := by
  unfold IntIntervalMap.get?
  rw [getGo_eq_lookupFirst p m.intervals 0 (Nat.zero_le p)]
  have hs := lookupFirst_isSome p m.intervals h
  cases heq : lookupFirst p m.intervals with
  | none => rw [heq] at hs; simp at hs
  | some v => rfl

theorem assign_MapWF [DecidableEq V] (M : Nat) (m : IntIntervalMap V)
    (rs re : Nat) (nv : V) (h : MapWF M m) (h1 : rs ≤ re) (h2 : re ≤ M) :
    MapWF M (m.assign rs re nv) := by
  obtain ⟨hne, hs, hlast⟩ := h
  have hLne : assignGo rs re nv 0 m.intervals ≠ [] :=
    assignGo_ne_nil rs re nv m.intervals 0 hne
  have hLs : lbSorted 0 (assignGo rs re nv 0 m.intervals) = true :=
    assignGo_lbSorted rs re nv h1 m.intervals 0 0 hs (Or.inl le_rfl)
  have hLlast : (lastEntry? (assignGo rs re nv 0 m.intervals)).map Prod.fst = some M :=
    assignGo_lastFst rs re M nv h2 m.intervals 0 hlast
  obtain ⟨u0, v0, Lt, hLeq⟩ :
      ∃ u0 v0 Lt, assignGo rs re nv 0 m.intervals = (u0, v0) :: Lt := by
    cases hq : assignGo rs re nv 0 m.intervals with
    | nil => exact absurd hq hLne
    | cons a t =>
      obtain ⟨u, v⟩ := a
      exact ⟨u, v, t, rfl⟩
  have hiv : (m.assign rs re nv).intervals = defragAux u0 v0 Lt := by
    show defragGo (assignGo rs re nv 0 m.intervals) = _
    rw [hLeq]
    rfl
  rw [hLeq] at hLs hLlast
  simp only [lbSorted, Bool.and_eq_true, decide_eq_true_eq] at hLs
  refine ⟨?_, ?_, ?_⟩
  · rw [hiv]; exact defragAux_ne_nil Lt u0 v0
  · rw [hiv]; exact defragAux_lbSorted Lt u0 v0 0 hLs.1 hLs.2
  · rw [hiv, defragAux_lastFst Lt u0 v0]; exact hLlast

theorem get?_assign [DecidableEq V] (M : Nat) (m : IntIntervalMap V)
    (rs re : Nat) (nv : V) (p : Nat) (c : V) (h : MapWF M m)
    (h1 : rs ≤ re) (h2 : re ≤ M) (hp : p < M) (hg : m.get? p = some c) :
    (m.assign rs re nv).get? p = some (if rs ≤ p ∧ p < re then nv else c) := by
  have hex := exists_gt_of_MapWF M m h p hp
  rw [get?_eq_lookupFirst m p hex] at hg
  rw [get?_eq_lookupFirst _ p
    (exists_gt_of_MapWF M _ (assign_MapWF M m rs re nv h h1 h2) p hp)]
  obtain ⟨hne, hs, hlast⟩ := h
  have hLs : lbSorted 0 (assignGo rs re nv 0 m.intervals) = true :=
    assignGo_lbSorted rs re nv h1 m.intervals 0 0 hs (Or.inl le_rfl)
  obtain ⟨u0, v0, Lt, hLeq⟩ :
      ∃ u0 v0 Lt, assignGo rs re nv 0 m.intervals = (u0, v0) :: Lt := by
    cases hq : assignGo rs re nv 0 m.intervals with
    | nil => exact absurd hq (assignGo_ne_nil rs re nv m.intervals 0 hne)
    | cons a t =>
      obtain ⟨u, v⟩ := a
      exact ⟨u, v, t, rfl⟩
  have hiv : (m.assign rs re nv).intervals = defragAux u0 v0 Lt := by
    show defragGo (assignGo rs re nv 0 m.intervals) = _
    rw [hLeq]
    rfl
  rw [hLeq] at hLs
  simp only [lbSorted, Bool.and_eq_true, decide_eq_true_eq] at hLs
  rw [hiv, defragAux_lookup p Lt u0 v0 hLs.2, ← hLeq,
    lookupFirst_assignGo rs re nv h1 m.intervals 0 p (Nat.zero_le p) hex, hg]
  by_cases hcov : rs ≤ p ∧ p < re
  · rw [if_pos hcov, if_pos hcov]
  · rw [if_neg hcov, if_neg hcov]

theorem applyOps_MapWF [DecidableEq V] (M : Nat) :
    ∀ (ops : List (AssignOp V)) (m : IntIntervalMap V), MapWF M m →
    (∀ op ∈ ops, op.WF M) → MapWF M (applyOps m ops) := by
  intro ops
  induction ops with
  | nil => intro m hm _; exact hm
  | cons op ops' ih =>
    intro m hm hwf
    have hop := hwf op (by simp)
    have hstep : MapWF M (AssignOp.apply m op) := by
      cases op with
      | range lo hi v => exact assign_MapWF M m lo hi v hm hop.1 hop.2
      | single q v =>
        exact assign_MapWF M m q (q + 1) v hm (by omega)
          (by simp only [AssignOp.WF] at hop; omega)
    exact ih (AssignOp.apply m op) hstep fun o ho => hwf o (by simp [ho])

theorem applyOps_get [DecidableEq V] (M p : Nat) (hp : p < M) :
    ∀ (ops : List (AssignOp V)) (m : IntIntervalMap V) (c : V),
    MapWF M m → (∀ op ∈ ops, op.WF M) → m.get? p = some c →
    (applyOps m ops).get? p =
      some (ops.foldl (fun acc op => if op.covers p then op.val else acc) c) := by
  intro ops
  induction ops with
  | nil => intro m c _ _ hg; exact hg
  | cons op ops' ih =>
    intro m c hm hwf hg
    have hop := hwf op (by simp)
    have hstep : (AssignOp.apply m op).get? p =
        some (if op.covers p then op.val else c) := by
      cases op with
      | range lo hi v =>
        have := get?_assign M m lo hi v p c hm hop.1 hop.2 hp hg
        simpa [AssignOp.apply, AssignOp.covers, AssignOp.val] using this
      | single q v =>
        simp only [AssignOp.WF] at hop
        have := get?_assign M m q (q + 1) v p c hm (by omega) (by omega) hp hg
        simpa [AssignOp.apply, IntIntervalMap.assign_single,
          AssignOp.covers, AssignOp.val] using this
    have hwf' : MapWF M (AssignOp.apply m op) := by
      cases op with
      | range lo hi v => exact assign_MapWF M m lo hi v hm hop.1 hop.2
      | single q v =>
        exact assign_MapWF M m q (q + 1) v hm (by omega)
          (by simp only [AssignOp.WF] at hop; omega)
    exact ih (AssignOp.apply m op) _ hwf' (fun o ho => hwf o (by simp [ho])) hstep

theorem noAdjDup_assign [DecidableEq V] (m : IntIntervalMap V)
    (rs re : Nat) (nv : V) : noAdjDup ((m.assign rs re nv).intervals) = true := by
  show noAdjDup (defragGo (assignGo rs re nv 0 m.intervals)) = true
  cases hq : assignGo rs re nv 0 m.intervals with
  | nil => rfl
  | cons a t =>
    obtain ⟨u0, v0⟩ := a
    exact defragAux_noAdjDup t u0 v0

theorem noAdjDup_applyOps [DecidableEq V] :
    ∀ (ops : List (AssignOp V)) (m : IntIntervalMap V),
    noAdjDup m.intervals = true → noAdjDup (applyOps m ops).intervals = true := by
  intro ops
  induction ops with
  | nil => intro m hm; exact hm
  | cons op ops' ih =>
    intro m hm
    refine ih (AssignOp.apply m op) ?_
    cases op with
    | range lo hi v => exact noAdjDup_assign m lo hi v
    | single q v => exact noAdjDup_assign m q (q + 1) v

end MapLemmas

/-! ## Claims C1, C5, C9 -/

/-- C1: starting from `CategoryTable::new(default)`, after any sequence of
well-formed `assign`/`assign_single` calls, `get(p)` returns the value of
the most recent assignment whose range covers the code point `p`, and the
default when no assignment has covered `p`.  (`p < U32MAX` covers every
Unicode code point; well-formedness is the implicit `u32`-range validity
of the Rust call.) -/
theorem C1_get_reflects_most_recent_assign (d : Category)
    (ops : List (AssignOp Category)) (hwf : ∀ op ∈ ops, op.WF U32MAX)
    (p : Nat) (hp : p < U32MAX) :
    (applyOps (IntIntervalMap.new U32MAX d) ops).get? p = some (specGet d ops p) := by
  have h0 : (IntIntervalMap.new U32MAX d).get? p = some d := by
    have hex : ∃ e ∈ (IntIntervalMap.new U32MAX d).intervals, p < e.1 :=
      ⟨(U32MAX, d), by simp [IntIntervalMap.new], hp⟩
    rw [get?_eq_lookupFirst _ p hex]
    show (if p < U32MAX then some d else none) = some d
    rw [if_pos hp]
  exact applyOps_get U32MAX p hp ops _ d (MapWF_new d U32MAX) hwf h0

theorem C1_witness :
    (applyOps (IntIntervalMap.new U32MAX Category.Cat12)
        [AssignOp.range 97 123 Category.Cat11,
         AssignOp.single 98 Category.Cat0]).get? 98 =
      some (specGet Category.Cat12
        [AssignOp.range 97 123 Category.Cat11,
         AssignOp.single 98 Category.Cat0] 98) :=
  C1_get_reflects_most_recent_assign Category.Cat12 _ (by decide) 98 (by decide)

/-- C5, as stated, is false: after the two well-formed calls
`assign(10..20, Cat11); assign(10..15, Cat0)` on a fresh table the
interval list contains two entries with the same upper bound 10, so it is
not strictly increasing. -/
theorem C5_counterexample :
    (∀ op ∈ ([AssignOp.range 10 20 Category.Cat11,
               AssignOp.range 10 15 Category.Cat0] : List (AssignOp Category)),
        op.WF U32MAX) ∧
    (applyOps (IntIntervalMap.new U32MAX Category.Cat12)
        [AssignOp.range 10 20 Category.Cat11,
         AssignOp.range 10 15 Category.Cat0]).intervals =
      [(10, Category.Cat12), (10, Category.Cat11), (15, Category.Cat0),
       (20, Category.Cat11), (U32MAX, Category.Cat12)] ∧
    strictSorted (applyOps (IntIntervalMap.new U32MAX Category.Cat12)
        [AssignOp.range 10 20 Category.Cat11,
         AssignOp.range 10 15 Category.Cat0]).intervals = false := by
  refine ⟨by decide, by decide, by decide⟩

/-- C5 amended: after every well-formed `assign`/`assign_single` call
sequence the interval list is weakly sorted by upper bound (zero-width
intervals with equal upper bounds can occur, so strictness fails) and no
two adjacent entries share the same category. -/
theorem C5_sorted_and_compact (d : Category) (ops : List (AssignOp Category))
    (hwf : ∀ op ∈ ops, op.WF U32MAX) :
    lbSorted 0 (applyOps (IntIntervalMap.new U32MAX d) ops).intervals = true ∧
    noAdjDup (applyOps (IntIntervalMap.new U32MAX d) ops).intervals = true := by
  refine ⟨(applyOps_MapWF U32MAX ops _ (MapWF_new d U32MAX) hwf).2.1, ?_⟩
  exact noAdjDup_applyOps ops _ (by rfl)

theorem C5_witness :
    lbSorted 0 (applyOps (IntIntervalMap.new U32MAX Category.Cat12)
        [AssignOp.range 10 20 Category.Cat11,
         AssignOp.range 10 15 Category.Cat0]).intervals = true ∧
    noAdjDup (applyOps (IntIntervalMap.new U32MAX Category.Cat12)
        [AssignOp.range 10 20 Category.Cat11,
         AssignOp.range 10 15 Category.Cat0]).intervals = true :=
  C5_sorted_and_compact Category.Cat12 _ (by decide)

/-- C9, as stated, is false: on the freshly constructed table — which
satisfies the domain-covering invariant (last upper bound `U32MAX`) — the
lookup loop finds no interval for the maximum index value `U32MAX` itself
(the intervals are right-open), and `get` reaches the fallback that
returns the last interval's value. -/
theorem C9_counterexample :
    MapWF U32MAX (IntIntervalMap.new U32MAX Category.Cat12) ∧
    getGo U32MAX 0 (IntIntervalMap.new U32MAX Category.Cat12).intervals = none ∧
    (IntIntervalMap.new U32MAX Category.Cat12).get? U32MAX = some Category.Cat12 := by
  refine ⟨⟨by decide, by decide, by decide⟩, by decide, by decide⟩

/-- C9 amended: for a table satisfying the invariant, the loop of `get`
finds an interval whose upper bound exceeds `p` for every `p` strictly
below the domain maximum; at `p = U32MAX` itself the loop finds nothing
and the fallback returns the last interval's value. -/
theorem C9_loop_hits_below_max (m : IntIntervalMap Category)
    (h : MapWF U32MAX m) (p : Nat) :
    (p < U32MAX → ∃ c, getGo p 0 m.intervals = some c) ∧
    getGo U32MAX 0 m.intervals = none ∧
    ∃ e, lastEntry? m.intervals = some e ∧ m.get? U32MAX = some e.2 := by
  obtain ⟨hne, hs, hlast⟩ := h
  have hub : ∀ e ∈ m.intervals, e.1 ≤ U32MAX :=
    lbSorted_le_last m.intervals 0 U32MAX hs hlast
  have hnone : lookupFirst U32MAX m.intervals = none :=
    lookupFirst_eq_none U32MAX m.intervals hub
  refine ⟨?_, ?_, ?_⟩
  · intro hp
    have hex : ∃ e ∈ m.intervals, p < e.1 :=
      exists_gt_of_MapWF U32MAX m ⟨hne, hs, hlast⟩ p hp
    have hsome := lookupFirst_isSome p m.intervals hex
    rw [getGo_eq_lookupFirst p m.intervals 0 (Nat.zero_le p)]
    exact Option.isSome_iff_exists.mp hsome
  · rw [getGo_eq_lookupFirst U32MAX m.intervals 0 (Nat.zero_le _)]
    exact hnone
  · obtain ⟨e, he⟩ := lastEntry?_isSome m.intervals hne
    refine ⟨e, he, ?_⟩
    unfold IntIntervalMap.get?
    rw [getGo_eq_lookupFirst U32MAX m.intervals 0 (Nat.zero_le _), hnone, he]
    rfl

theorem C9_witness :
    ∃ c, getGo 5 0 (IntIntervalMap.new U32MAX Category.Cat12).intervals = some c :=
  (C9_loop_hits_below_max _ ⟨by decide, by decide, by decide⟩ 5).1 (by decide)

/-! ## Claims C3, C4, C8 (macro-definition parser) -/

/-- C3, as stated, is false: `define` accepts a replacement text that the
parameter scan would reject (an explicit brace), storing it verbatim —
the replacement text is not passed through the scan at all. -/
theorem C3_counterexample :
    TexMacro.define (Token.ControlSequence (strChars "f") ⟨3, 5, 7⟩) []
        [Token.Character 123 Category.Cat1] =
      Except.ok
        { control_sequence := strChars "f"
          parameters := []
          replacement_text := [Token.Character 123 Category.Cat1]
          location := { start := (3, 5), stop := (0, 0) } } ∧
    parse_param_list [Token.Character 123 Category.Cat1] =
      Except.error ExpansionError.ExplicitBracesInParameterText :=
  ⟨rfl, rfl⟩

/-- C3 amended: `define` runs the parameter scan on the parameter text
only — its errors are exactly the scan's errors on the parameter text, and
on success the replacement text is stored verbatim while the stored
parameters are the scan's output. -/
theorem C3_only_param_text_scanned (name : List Nat) (span : Span)
    (ptext rtext : List Token) :
    (∀ e, TexMacro.define (Token.ControlSequence name span) ptext rtext =
        Except.error e ↔ parse_param_list ptext = Except.error e) ∧
    (∀ m, TexMacro.define (Token.ControlSequence name span) ptext rtext =
        Except.ok m →
      m.replacement_text = rtext ∧ parse_param_list ptext = Except.ok m.parameters) := by
  constructor
  · intro e
    cases hq : parse_param_list ptext with
    | ok params => simp [TexMacro.define, hq]
    | error e' => simp [TexMacro.define, hq]
  · intro m hm
    cases hq : parse_param_list ptext with
    | ok params =>
      simp only [TexMacro.define, hq, Except.ok.injEq] at hm
      rw [← hm]
      exact ⟨rfl, rfl⟩
    | error e' => simp [TexMacro.define, hq] at hm

/-- Instance of the C3 amended theorem at a concrete input. -/
theorem C3_witness :
    (({ control_sequence := strChars "f"
        parameters := []
        replacement_text := [Token.Character 97 Category.Cat11]
        location := { start := (1, 0), stop := (0, 0) } } : TexMacro)).replacement_text =
      [Token.Character 97 Category.Cat11] ∧
    parse_param_list [] = Except.ok
      (({ control_sequence := strChars "f"
          parameters := []
          replacement_text := [Token.Character 97 Category.Cat11]
          location := { start := (1, 0), stop := (0, 0) } } : TexMacro)).parameters :=
  (C3_only_param_text_scanned (strChars "f") ⟨1, 0, 4⟩ []
    [Token.Character 97 Category.Cat11]).2 _ rfl

/-- C4, as stated, is false: a parameter marker followed by another
parameter marker is not passed through literally — the scan fails with
`InvalidParameterNumber`. -/
theorem C4_counterexample :
    parse_param_list
        [Token.Character 35 Category.Cat6, Token.Character 35 Category.Cat6] =
      Except.error ExpansionError.InvalidParameterNumber := rfl

/-- C4 amended: after a parameter marker the scan accepts exactly a
`Character` of category Other (`Cat12`) whose value is an ASCII digit 1-9,
recording the digit as the parameter number; every other follower —
including a second parameter marker — fails with `InvalidParameterNumber`. -/
theorem C4_marker_follower (t : Token) (rest delim : List Token)
    (params : List MacroParameter) :
    ppl_go (t :: rest) delim none true params =
      match digitFollower? t with
      | some n => ppl_go rest delim (some n) false params
      | none => Except.error ExpansionError.InvalidParameterNumber := by
  cases t with
  | ControlSequence a b => rfl
  | Parameter n => rfl
  | Other o l => rfl
  | Character c cat =>
    cases cat <;> first
      | rfl
      | (simp only [ppl_go, digitFollower?]; split_ifs <;> rfl)

/-- C8, as stated, is false: a parameter text consisting of a bare
parameter marker makes `define` succeed (with no parameters), not fail
with `InvalidParameterNumber`. -/
theorem C8_counterexample :
    TexMacro.define (Token.ControlSequence (strChars "f") ⟨1, 0, 1⟩)
        [Token.Character 35 Category.Cat6] [] =
      Except.ok
        { control_sequence := strChars "f"
          parameters := []
          replacement_text := []
          location := { start := (1, 0), stop := (0, 0) } } := rfl

/-- C8 amended: a trailing unmatched parameter marker is consumed (setting
the `arg_start` flag) and then silently dropped at the end of the list:
the scan returns the parameters collected so far, finishing a pending
numbered parameter if one is open. -/
theorem C8_trailing_marker_ignored (c : Nat) (delim : List Token)
    (pnum : Option Nat) (params : List MacroParameter) :
    ppl_go [Token.Character c Category.Cat6] delim pnum false params =
      Except.ok (match pnum with
        | some n => finish_param n delim params
        | none => params) := by
  cases pnum with
  | none => rfl
  | some n => rfl

/-! ## Claims C2, C6, C7, C10 (tokenizer) -/

/-- C2: the `are_hexdigits` guard accepts the Unicode-numeric character
`'¹'` (code 185), which is not a lowercase hex digit, and the decode then
panics in `from_str_radix` instead of falling back to consuming the raw
superscript character with length 1 as the claim states.  The state is a
fresh tokenizer after loading the line `^^¹¹`. -/
theorem C2_escape_hex_guard_panics :
    (((Tokenizer.new [[94, 94, 185, 185]]).next_line).2).parse_superscript_char =
      Except.error hexPanicMsg ∧
    (((Tokenizer.new [[94, 94, 185, 185]]).next_line).2).pop_char =
      Except.error hexPanicMsg ∧
    (((Tokenizer.new [[94, 94, 185, 185]]).next_line).2).input =
      [94, 94, 185, 185, 13] ∧
    hexCheck 185 = true ∧ isAsciiHexdigit 185 = false :=
  ⟨rfl, rfl, rfl, rfl, rfl⟩

/-- C6: producing the next token can panic: on the single input line
`^^¹¹` (superscript escape whose two following characters are Unicode
numerics but not hex digits) the scanner hits the `from_str_radix`
`expect` instead of degrading to a shorter escape or literal consumption. -/
theorem C6_next_token_panics :
    Tokenizer.collectTokens 32 (Tokenizer.new [[94, 94, 185, 185]]) =
      Except.error hexPanicMsg := rfl

/-- C7: tokenizing the single line `\test  ` with a freshly constructed
tokenizer yields exactly the one token `ControlSequence "test"` with span
line 1, columns 0-4 — the trailing spaces are stripped by line
preprocessing and the end-of-line in SkippingBlanks state emits nothing. -/
theorem C7_control_word_absorbs_trailing_spaces :
    Tokenizer.collectTokens 64 (Tokenizer.new [strChars "\\test  "]) =
      Except.ok [Token.ControlSequence (strChars "test") ⟨1, 0, 4⟩] := rfl

/-- C10: a fresh tokenizer's end-of-line character is `'\r'` (13);
`get_endlinechar` returns it, every loaded line is the raw line with
trailing spaces stripped and `'\r'` appended (13 ≤ 255), and the default
category of code 13 is `Cat5` (end of line). -/
theorem C10_default_endlinechar (st : Tokenizer) (raw : List Nat)
    (rest : List (List Nat)) (h1 : st.endlinechar = 13)
    (h2 : st.lines = raw :: rest) :
    (∀ ls, (Tokenizer.new ls).get_endlinechar = 13) ∧
    st.get_endlinechar = 13 ∧
    (st.next_line).1 = true ∧
    ((st.next_line).2).line = trimEndSpaces raw ++ [13] ∧
    defaultCategoryMap.get? 13 = some Category.Cat5 := by
  refine ⟨fun ls => rfl, h1, ?_, ?_, rfl⟩
  · simp [Tokenizer.next_line, h2]
  · simp [Tokenizer.next_line, h2, h1]

/-- Instance of the C10 theorem at a concrete input. -/
theorem C10_witness :
    (((Tokenizer.new [[97, 32]]).next_line).2).line = trimEndSpaces [97, 32] ++ [13] :=
  (C10_default_endlinechar (Tokenizer.new [[97, 32]]) [97, 32] [] rfl rfl).2.2.2.1

end Textile
